import Mathlib

/-!
Shallow embedding of the dependency-edge engine of `dag-benchmarks/bench.cpp`
(the PASL DAG-machine benchmark).  The embedding gives each data structure a
sequential, atomic-step semantics: every `std::atomic` load / store /
compare-exchange executes without interference from other threads, so a CAS
whose expected value was just loaded succeeds.  Pointers are modelled by
inductive trees (the heap shape they form) or by natural-number identifiers;
random choices (`random_int(0, branching_factor)`) are supplied as explicit
lists of naturals, reduced modulo the branching factor.  The dyntree
structures are modelled at `branching_factor = 2`, the value the source
initialises the global with (`int branching_factor = 2`, bench.cpp:289),
except where a claim is explicitly about all `B` slots of one node
(`try_to_detatch`), which is modelled over slot lists of arbitrary length.
-/

/-! Child-slot contents of a `direct::dyntree::incounter_node`
(bench.cpp:300-336).  A slot holds a null pointer, the `minus` tag
(a null pointer tagged with `minus_tag`), or a pointer to a child node,
identified here by a natural number. -/

inductive islot where
  | null : islot
  | minus : islot
  | child : Nat → islot
deriving DecidableEq

/-- Model of `direct::dyntree::dyntree_incounter::try_to_detatch`
(bench.cpp:426-437) on the list of the node's `branching_factor` child
slots.  The sweep CASes slot `i` from null to `minus` for `i = 0, 1, ...`;
a CAS succeeds exactly when the slot holds null.  On the first failing
index `i` the code stores null back into every slot `j < i` (each of which
held null before the sweep, since its CAS succeeded) and reports `false`;
slots from `i` on are never written.  The recursion below computes the same
final slot list: a prefix of nulls becomes `minus` only if the whole sweep
succeeds. -/
def try_to_detatch : List islot → Bool × List islot
  | [] => (true, [])
  | islot.null :: rest =>
    match try_to_detatch rest with
    | (true, rest') => (true, islot.minus :: rest')
    | (false, rest') => (false, islot.null :: rest')
  | s :: rest => (false, s :: rest)

/-! The simple out-set (`direct::simple::simple_outset`, bench.cpp:184-243):
an atomic head pointer to a Treiber-style list of successor records, with the
terminal state encoded by the `finished_code` tag on the head.  Successor
nodes are natural-number identifiers. -/

inductive insert_status where
  | insert_success : insert_status
  | insert_fail : insert_status
deriving DecidableEq

structure simple_outset where
  finished : Bool
  items : List Nat
deriving DecidableEq

/-- `simple_outset::insert` (bench.cpp:200-218).  A fresh cell is spliced at
the head by CAS unless the head carries the finished tag, in which case the
cell is discarded and the insertion fails.  Sequentially the CAS succeeds on
the first attempt. -/
def simple_outset.insert (o : simple_outset) (n : Nat) : insert_status × simple_outset :=
  if o.finished then (insert_status.insert_fail, o)
  else (insert_status.insert_success, ⟨false, n :: o.items⟩)

/-- `simple_outset::finish` (bench.cpp:220-241).  The head is swung to
`(null, finished_code)` by CAS and the captured list is walked, calling
`decrement_incounter` on each recorded successor.  The first component is
the list of successors notified, in traversal order. -/
def simple_outset.finish (o : simple_outset) : List Nat × simple_outset :=
  (o.items, ⟨true, []⟩)

/-! The `add_edge` discipline (`direct::add_edge`, bench.cpp:851-856) over
one target in-counter and one source out-set.  `increment_incounter` /
`decrement_incounter` (bench.cpp:780-821) are modelled by their effect on
the logical count of the target's in-counter; the out-set is the object
(tag 0) path of `outset_insert` (bench.cpp:827-849) instantiated with the
simple out-set. -/

structure edge_state where
  inCount : Int
  out : simple_outset
deriving DecidableEq

def increment_incounter (s : edge_state) : edge_state :=
  { s with inCount := s.inCount + 1 }

def decrement_incounter (s : edge_state) : edge_state :=
  { s with inCount := s.inCount - 1 }

/-- `direct::add_edge` (bench.cpp:851-856): first increment the target's
in-counter, then insert the target into the source's out-set; if the
insertion fails (out-set already finished) perform the compensating
decrement.  The boolean records whether the compensating decrement ran. -/
def add_edge (s : edge_state) (target : Nat) : edge_state × Bool :=
  let s1 := increment_incounter s
  match s1.out.insert target with
  | (insert_status.insert_success, o') => ({ s1 with out := o' }, false)
  | (insert_status.insert_fail, o') => (decrement_incounter { s1 with out := o' }, true)

/-! The benchmark wrapper around the simple atomic in-counter
(`benchmarks::simple_incounter_wrapper`, bench.cpp:2239-2256) and the
fetch-add decrement path of `direct::decrement_incounter`
(bench.cpp:798-813). -/

/-- `simple_incounter_wrapper::decrement` (bench.cpp:2252-2254):
`return counter-- == 0;` — the post-decrement returns the old value, so the
wrapper reports activated exactly when the counter was 0 before the
decrement, and the counter is then driven to -1. -/
def simple_wrapper_decrement (c : Int) : Bool × Int :=
  (c == 0, c - 1)

/-- `simple_incounter_wrapper::increment` (bench.cpp:2248-2250). -/
def simple_wrapper_increment (c : Int) : Int :=
  c + 1

/-- Fetch-add decrement path of `direct::decrement_incounter`
(bench.cpp:803-807): the old value is fetched while adding -1 and the
target is scheduled exactly when the old value was 1. -/
def fetch_add_decrement (c : Int) : Bool × Int :=
  (c == 1, c - 1)

/-- Run a sequence of operations on the wrapper counter (`true` =
increment, `false` = decrement), starting from count `c`; returns the final
count and how many decrements reported activated. -/
def wrapper_run : Int → List Bool → Int × Nat
  | c, [] => (c, 0)
  | c, true :: ops => wrapper_run (simple_wrapper_increment c) ops
  | c, false :: ops =>
    let r := simple_wrapper_decrement c
    let rest := wrapper_run r.2 ops
    (rest.1, (if r.1 then 1 else 0) + rest.2)

/-- The running count stays non-negative throughout the sequence (checked
before the first operation and after every operation). -/
def never_below_zero : Int → List Bool → Bool
  | c, [] => decide (0 ≤ c)
  | c, op :: ops =>
    decide (0 ≤ c) && never_below_zero (if op then c + 1 else c - 1) ops

/-! Theorems for claims C1, C4, C5 (and helper lemmas). -/

theorem try_to_detatch_false_eq (s : List islot) :
    (try_to_detatch s).1 = false → (try_to_detatch s).2 = s := by
  induction s with
  | nil => intro h; simp [try_to_detatch] at h
  | cons a rest ih =>
    intro h
    cases a with
    | null =>
      cases hr : try_to_detatch rest with
      | mk b rest' =>
        cases b with
        | true => simp [try_to_detatch, hr] at h
        | false =>
          have : rest' = rest := by
            have := ih (by rw [hr])
            rw [hr] at this; exact this
          simp [try_to_detatch, hr, this]
    | minus => simp [try_to_detatch]
    | child k => simp [try_to_detatch]

theorem try_to_detatch_true_eq (s : List islot) :
    (try_to_detatch s).1 = true →
      (try_to_detatch s).2 = List.replicate s.length islot.minus ∧
      s = List.replicate s.length islot.null := by
  induction s with
  | nil => intro _; simp [try_to_detatch]
  | cons a rest ih =>
    intro h
    cases a with
    | null =>
      cases hr : try_to_detatch rest with
      | mk b rest' =>
        cases b with
        | true =>
          have hrest := ih (by rw [hr])
          rw [hr] at hrest
          simp only at hrest
          refine ⟨?_, ?_⟩
          · simp [try_to_detatch, hr, List.replicate_succ, hrest.1]
          · simp [List.replicate_succ]
            exact hrest.2
        | false => simp [try_to_detatch, hr] at h
    | minus => simp [try_to_detatch] at h
    | child k => simp [try_to_detatch] at h

/-- C5: `try_to_detatch` is all-or-nothing: if it returns true then every
child slot of the node holds the minus tag, and if it returns false then
every slot it had written has been rolled back to null, leaving all slots
with their prior contents (the final slot list equals the initial one). -/
theorem C5_try_to_detatch_all_or_nothing (s : List islot) :
    ((try_to_detatch s).1 = true →
      (try_to_detatch s).2 = List.replicate s.length islot.minus) ∧
    ((try_to_detatch s).1 = false → (try_to_detatch s).2 = s) :=
  ⟨fun h => (try_to_detatch_true_eq s h).1, try_to_detatch_false_eq s⟩

theorem C5_witness :
    (try_to_detatch [islot.null, islot.null]).2 = List.replicate 2 islot.minus ∧
    (try_to_detatch [islot.null, islot.child 7]).2 = [islot.null, islot.child 7] :=
  ⟨(C5_try_to_detatch_all_or_nothing [islot.null, islot.null]).1 (by decide),
   (C5_try_to_detatch_all_or_nothing [islot.null, islot.child 7]).2 (by decide)⟩

/-- C1: `add_edge` first increments the target's in-counter, then attempts
the insertion; the compensating decrement runs if and only if the insertion
fails, so for each edge exactly one of the decrement-on-finish path (the
target appears exactly once more in the out-set, and `finish` decrements
each recorded successor exactly once) and the decrement-on-insertion-failure
path runs — never both, never neither.  The net in-counter effect is +1 on
success and 0 on failure. -/
theorem C1_add_edge_compensation (s : edge_state) (t : Nat) :
    ((add_edge s t).2 = true ↔ s.out.finished = true) ∧
    (((add_edge s t).1.out.items.count t + (if (add_edge s t).2 then 1 else 0)
        = s.out.items.count t + 1)) ∧
    ((add_edge s t).1.inCount = if (add_edge s t).2 then s.inCount else s.inCount + 1) ∧
    (∀ o : simple_outset, (simple_outset.finish o).1 = o.items) := by
  refine ⟨?_, ?_, ?_, fun o => rfl⟩ <;>
    cases hf : s.out.finished <;>
      simp [add_edge, increment_incounter, decrement_incounter,
            simple_outset.insert, hf]

/-! Claim C4 concerns `simple_incounter_wrapper::decrement`.  The wrapper
reports activated exactly when the counter was zero before the decrement
(`counter-- == 0` returns the old value); consequently, over a sequence of
N increments and D = N decrements in which the running count never goes
below zero, no decrement ever reports activated (a decrement whose
pre-count is 0 would drive the count to -1).  The claim that exactly one
decrement reports activated is therefore false; the counterexample below
exhibits the sequence increment-then-decrement. -/

theorem wrapper_run_nonneg (ops : List Bool) :
    ∀ c : Int, never_below_zero c ops = true →
      (wrapper_run c ops).1 = c + (ops.count true : Int) - (ops.count false : Int) ∧
      (wrapper_run c ops).2 = 0 := by
  induction ops with
  | nil => intro c _; simp [wrapper_run]
  | cons op ops ih =>
    intro c h
    simp only [never_below_zero, Bool.and_eq_true, decide_eq_true_eq] at h
    cases op with
    | true =>
      have := ih (c + 1) h.2
      constructor
      · rw [wrapper_run, simple_wrapper_increment, this.1]
        simp [List.count_cons]
        ring
      · rw [wrapper_run, simple_wrapper_increment, this.2]
    | false =>
      have hnz : never_below_zero (c - 1) ops = true := h.2
      have hge : (0 : Int) ≤ c - 1 := by
        cases ops with
        | nil => simpa [never_below_zero] using hnz
        | cons b obs =>
          simp only [never_below_zero, Bool.and_eq_true, decide_eq_true_eq] at hnz
          exact hnz.1
      have hne : (c == 0) = false := by
        have : c ≠ 0 := by omega
        simpa using this
      have := ih (c - 1) hnz
      constructor
      · simp only [wrapper_run, simple_wrapper_decrement, this.1]
        simp [List.count_cons]
        ring
      · simp only [wrapper_run, simple_wrapper_decrement, hne, this.2]
        simp

/-- C4 counterexample: the sequence increment; decrement has N = D = 1 and
its running count (0, 1, 0) never goes below zero, yet no decrement of
`simple_incounter_wrapper` reports activated — not exactly one. -/
theorem C4_counterexample :
    ([true, false].count true = 1) ∧
    ([true, false].count false = 1) ∧
    never_below_zero 0 [true, false] = true ∧
    ¬ (wrapper_run 0 [true, false]).2 = 1 := by
  refine ⟨by decide, by decide, by decide, by decide⟩

/-- C4 amended: `simple_incounter_wrapper::decrement` reports activated
exactly when the counter was zero before the decrement (driving it to -1);
hence over any sequence of N increments and D = N decrements whose running
count never goes below zero, no decrement reports activated and the final
count is zero (the activated state of the underlying fetch-add strategy).
The fetch-add decrement path of `direct::decrement_incounter`, by contrast,
schedules the target exactly when the pre-decrement count is 1. -/
theorem C4_simple_wrapper_decrement_reports (c : Int) (ops : List Bool) :
    ((simple_wrapper_decrement c).1 = true ↔ c = 0) ∧
    ((fetch_add_decrement c).1 = true ↔ c = 1) ∧
    (never_below_zero 0 ops = true → ops.count false = ops.count true →
      (wrapper_run 0 ops).1 = 0 ∧ (wrapper_run 0 ops).2 = 0) := by
  refine ⟨by simp [simple_wrapper_decrement], by simp [fetch_add_decrement], ?_⟩
  intro h hc
  have := wrapper_run_nonneg ops 0 h
  refine ⟨?_, this.2⟩
  rw [this.1, hc]
  ring

theorem C4_witness :
    ((simple_wrapper_decrement 0).1 = true ↔ (0 : Int) = 0) ∧
    ((wrapper_run 0 [true, false]).1 = 0 ∧ (wrapper_run 0 [true, false]).2 = 0) :=
  ⟨(C4_simple_wrapper_decrement_reports 0 []).1,
   (C4_simple_wrapper_decrement_reports 0 [true, false]).2.2 (by decide) (by decide)⟩

/-! The dyntree out-set (`direct::dyntree::dyntree_outset`,
bench.cpp:461-595) at `branching_factor = 2`.  Each `outset_node` owns two
atomic child slots; a slot is in one of six tag-encoded states.  Successor
nodes (`node*` leaves) are natural-number identifiers. -/

mutual
inductive outset_slot where
  | empty : outset_slot
  | leaf : Nat → outset_slot
  | interior : outset_node → outset_slot
  | finished_empty : outset_slot
  | finished_leaf : Nat → outset_slot
  | finished_interior : outset_node → outset_slot

inductive outset_node where
  | mk : outset_slot → outset_slot → outset_node
end

/-- Read child slot `i % 2` of an `outset_node` (`children[i].load()`). -/
def outset_node.slot : outset_node → Nat → outset_slot
  | outset_node.mk s0 _, 0 => s0
  | outset_node.mk _ s1, _ => s1

/-- Write child slot `i % 2` of an `outset_node` (a successful CAS). -/
def outset_node.set_slot : outset_node → Nat → outset_slot → outset_node
  | outset_node.mk _ s1, 0, s => outset_node.mk s s1
  | outset_node.mk s0 _, _, s => outset_node.mk s0 s

/-- `dyntree_outset::insert` (bench.cpp:536-579), one random choice per
slot inspection.  At each step the walk loads slot `c % 2`: a finished tag
aborts with fail; an empty slot is CAS-filled with a leaf; an existing leaf
is displaced into a fresh interior node whose children are
`(val, displaced-leaf)` (the `outset_node(child1, child2)` constructor,
bench.cpp:493-497, stores the new value at slot 0 and the displaced leaf at
slot 1); an interior slot is descended through.  Sequentially every CAS
succeeds, so the reload-after-lost-CAS paths are not taken.  `none` means
the supplied choice list ran out before the walk ended. -/
def outset_insert_tree : outset_node → Nat → List Nat → Option (Bool × outset_node)
  | _, _, [] => none
  | nd, v, c :: cs =>
    match nd.slot (c % 2) with
    | outset_slot.finished_empty => some (false, nd)
    | outset_slot.finished_leaf _ => some (false, nd)
    | outset_slot.finished_interior _ => some (false, nd)
    | outset_slot.empty => some (true, nd.set_slot (c % 2) (outset_slot.leaf v))
    | outset_slot.leaf d =>
      some (true, nd.set_slot (c % 2)
        (outset_slot.interior (outset_node.mk (outset_slot.leaf v) (outset_slot.leaf d))))
    | outset_slot.interior ch =>
      match outset_insert_tree ch v cs with
      | some (r, ch') => some (r, nd.set_slot (c % 2) (outset_slot.interior ch'))
      | none => none

mutual
/-- `outset_node::make_finished` (bench.cpp:503-519) on one slot, recursing
into interiors as the notify walk
(`notify_outset_tree_nodes_partial`, bench.cpp:1029-1053) does.  The walk
is run once, on a tree with no finished tags; on an already-finished tag
the source asserts false, modelled here as the identity. -/
def finish_slot : outset_slot → outset_slot
  | outset_slot.empty => outset_slot.finished_empty
  | outset_slot.leaf t => outset_slot.finished_leaf t
  | outset_slot.interior n => outset_slot.finished_interior (finish_tree n)
  | outset_slot.finished_empty => outset_slot.finished_empty
  | outset_slot.finished_leaf t => outset_slot.finished_leaf t
  | outset_slot.finished_interior n => outset_slot.finished_interior n

/-- The cumulative effect on the tree of `dyntree_outset::finish`:
the notify walk CASes every slot of every reachable node to its finished
counterpart. -/
def finish_tree : outset_node → outset_node
  | outset_node.mk s0 s1 => outset_node.mk (finish_slot s0) (finish_slot s1)
end

mutual
/-- Whether a slot carries (or leads to) a finished tag. -/
def slot_has_finished : outset_slot → Bool
  | outset_slot.empty => false
  | outset_slot.leaf _ => false
  | outset_slot.interior n => node_has_finished n
  | outset_slot.finished_empty => true
  | outset_slot.finished_leaf _ => true
  | outset_slot.finished_interior _ => true

/-- Whether any slot reachable from the node carries a finished tag. -/
def node_has_finished : outset_node → Bool
  | outset_node.mk s0 s1 => slot_has_finished s0 || slot_has_finished s1
end

/-- The shape of a successful insertion of leaf `v`: exactly one slot of
the tree changed, either from empty to `leaf v`, or from `leaf d` to a
fresh interior node whose two children are the new leaf and the displaced
leaf. -/
inductive inserted (v : Nat) : outset_node → outset_node → Prop where
  | fill0 (s1) : inserted v (outset_node.mk outset_slot.empty s1)
      (outset_node.mk (outset_slot.leaf v) s1)
  | fill1 (s0) : inserted v (outset_node.mk s0 outset_slot.empty)
      (outset_node.mk s0 (outset_slot.leaf v))
  | push0 (d s1) : inserted v (outset_node.mk (outset_slot.leaf d) s1)
      (outset_node.mk
        (outset_slot.interior (outset_node.mk (outset_slot.leaf v) (outset_slot.leaf d))) s1)
  | push1 (s0 d) : inserted v (outset_node.mk s0 (outset_slot.leaf d))
      (outset_node.mk s0
        (outset_slot.interior (outset_node.mk (outset_slot.leaf v) (outset_slot.leaf d))))
  | deep0 (ch ch' s1) : inserted v ch ch' →
      inserted v (outset_node.mk (outset_slot.interior ch) s1)
        (outset_node.mk (outset_slot.interior ch') s1)
  | deep1 (s0 ch ch') : inserted v ch ch' →
      inserted v (outset_node.mk s0 (outset_slot.interior ch))
        (outset_node.mk s0 (outset_slot.interior ch'))

theorem outset_insert_tree_spec (v : Nat) :
    ∀ (cs : List Nat) (nd : outset_node) (r : Bool) (nd' : outset_node),
      outset_insert_tree nd v cs = some (r, nd') →
      (r = true ∧ inserted v nd nd') ∨
      (r = false ∧ nd' = nd ∧ node_has_finished nd = true) := by
  intro cs
  induction cs with
  | nil => intro nd r nd' h; simp [outset_insert_tree] at h
  | cons c cs ih =>
    intro nd r nd' h
    obtain ⟨s0, s1⟩ := nd
    rcases Nat.mod_two_eq_zero_or_one c with hc | hc
    · rw [outset_insert_tree, hc] at h
      cases s0 with
      | empty =>
        simp only [outset_node.slot, outset_node.set_slot, Option.some.injEq,
          Prod.mk.injEq] at h
        exact Or.inl ⟨h.1.symm, h.2 ▸ inserted.fill0 s1⟩
      | leaf d =>
        simp only [outset_node.slot, outset_node.set_slot, Option.some.injEq,
          Prod.mk.injEq] at h
        exact Or.inl ⟨h.1.symm, h.2 ▸ inserted.push0 d s1⟩
      | interior ch =>
        simp only [outset_node.slot] at h
        cases hrec : outset_insert_tree ch v cs with
        | none => rw [hrec] at h; simp at h
        | some p =>
          obtain ⟨r2, ch'⟩ := p
          rw [hrec] at h
          simp only [outset_node.set_slot, Option.some.injEq, Prod.mk.injEq] at h
          rcases ih ch r2 ch' hrec with ⟨hr, hins⟩ | ⟨hr, he, hfin⟩
          · exact Or.inl ⟨by rw [← h.1, hr], h.2 ▸ inserted.deep0 ch ch' s1 hins⟩
          · refine Or.inr ⟨by rw [← h.1, hr], ?_, ?_⟩
            · rw [← h.2, he]
            · simp [node_has_finished, slot_has_finished, hfin]
      | finished_empty =>
        simp only [outset_node.slot, Option.some.injEq, Prod.mk.injEq] at h
        exact Or.inr ⟨h.1.symm, h.2.symm, by simp [node_has_finished, slot_has_finished]⟩
      | finished_leaf d =>
        simp only [outset_node.slot, Option.some.injEq, Prod.mk.injEq] at h
        exact Or.inr ⟨h.1.symm, h.2.symm, by simp [node_has_finished, slot_has_finished]⟩
      | finished_interior m =>
        simp only [outset_node.slot, Option.some.injEq, Prod.mk.injEq] at h
        exact Or.inr ⟨h.1.symm, h.2.symm, by simp [node_has_finished, slot_has_finished]⟩
    · rw [outset_insert_tree, hc] at h
      cases s1 with
      | empty =>
        simp only [outset_node.slot, outset_node.set_slot, Option.some.injEq,
          Prod.mk.injEq] at h
        exact Or.inl ⟨h.1.symm, h.2 ▸ inserted.fill1 s0⟩
      | leaf d =>
        simp only [outset_node.slot, outset_node.set_slot, Option.some.injEq,
          Prod.mk.injEq] at h
        exact Or.inl ⟨h.1.symm, h.2 ▸ inserted.push1 s0 d⟩
      | interior ch =>
        simp only [outset_node.slot] at h
        cases hrec : outset_insert_tree ch v cs with
        | none => rw [hrec] at h; simp at h
        | some p =>
          obtain ⟨r2, ch'⟩ := p
          rw [hrec] at h
          simp only [outset_node.set_slot, Option.some.injEq, Prod.mk.injEq] at h
          rcases ih ch r2 ch' hrec with ⟨hr, hins⟩ | ⟨hr, he, hfin⟩
          · exact Or.inl ⟨by rw [← h.1, hr], h.2 ▸ inserted.deep1 s0 ch ch' hins⟩
          · refine Or.inr ⟨by rw [← h.1, hr], ?_, ?_⟩
            · rw [← h.2, he]
            · simp [node_has_finished, slot_has_finished, hfin]
      | finished_empty =>
        simp only [outset_node.slot, Option.some.injEq, Prod.mk.injEq] at h
        exact Or.inr ⟨h.1.symm, h.2.symm, by simp [node_has_finished, slot_has_finished]⟩
      | finished_leaf d =>
        simp only [outset_node.slot, Option.some.injEq, Prod.mk.injEq] at h
        exact Or.inr ⟨h.1.symm, h.2.symm, by simp [node_has_finished, slot_has_finished]⟩
      | finished_interior m =>
        simp only [outset_node.slot, Option.some.injEq, Prod.mk.injEq] at h
        exact Or.inr ⟨h.1.symm, h.2.symm, by simp [node_has_finished, slot_has_finished]⟩

/-- C6: a completed dyntree out-set insert returns success or fail; on fail
the tree is unchanged and a finished-tagged slot was encountered (so such a
slot exists in the tree); when the tree holds no finished tag the result is
success; and on success exactly one slot changed, either installing the
target as a leaf in a previously empty slot, or replacing an existing leaf
with a fresh interior node whose two children are the new leaf and the
displaced leaf. -/
theorem C6_dyntree_outset_insert (nd : outset_node) (v : Nat) (cs : List Nat)
    (r : Bool) (nd' : outset_node) :
    (outset_insert_tree nd v cs = some (r, nd') →
      ((r = true ∧ inserted v nd nd') ∨
       (r = false ∧ nd' = nd ∧ node_has_finished nd = true))) ∧
    (node_has_finished nd = false → outset_insert_tree nd v cs = some (r, nd') →
      r = true ∧ inserted v nd nd') := by
  refine ⟨outset_insert_tree_spec v cs nd r nd', fun hnf h => ?_⟩
  rcases outset_insert_tree_spec v cs nd r nd' h with hok | ⟨_, _, hfin⟩
  · exact hok
  · rw [hnf] at hfin; cases hfin

theorem C6_witness :
    (true = true ∧
      inserted 5 (outset_node.mk outset_slot.empty outset_slot.empty)
        (outset_node.mk (outset_slot.leaf 5) outset_slot.empty)) :=
  (C6_dyntree_outset_insert (outset_node.mk outset_slot.empty outset_slot.empty) 5 [0]
    true (outset_node.mk (outset_slot.leaf 5) outset_slot.empty)).2 rfl rfl

/-- C2: once `finish()` has completed on an out-set, every subsequent
insert returns fail, for the simple out-set (the head carries the finished
tag, an insertion observing it fails and leaves the out-set unchanged) and
for the dyntree out-set (after the notify walk has CASed every slot to its
finished counterpart, every insert walk meets a finished tag at its first
slot inspection and fails, leaving the tree unchanged). -/
theorem C2_finished_barrier :
    (∀ o : simple_outset, ((simple_outset.finish o).2).finished = true) ∧
    (∀ (o : simple_outset) (n : Nat), o.finished = true →
      o.insert n = (insert_status.insert_fail, o)) ∧
    (∀ (nd : outset_node) (v c : Nat) (cs : List Nat),
      outset_insert_tree (finish_tree nd) v (c :: cs) = some (false, finish_tree nd)) := by
  refine ⟨fun o => rfl, fun o n h => by simp [simple_outset.insert, h], ?_⟩
  intro nd v c cs
  obtain ⟨s0, s1⟩ := nd
  rcases Nat.mod_two_eq_zero_or_one c with hc | hc
  · rw [outset_insert_tree, hc]
    cases s0 <;> simp [finish_tree, finish_slot, outset_node.slot]
  · rw [outset_insert_tree, hc]
    cases s1 <;> simp [finish_tree, finish_slot, outset_node.slot]

theorem C2_witness :
    simple_outset.insert ⟨true, []⟩ 3 = (insert_status.insert_fail, ⟨true, []⟩) :=
  C2_finished_barrier.2.1 ⟨true, []⟩ 3 rfl

/-! The dyntree in-counter (`direct::dyntree::dyntree_incounter`,
bench.cpp:338-459) at `branching_factor = 2`.  The in-tree is a tree of
`incounter_node`s, each with two child slots; `none` models a null slot.
In a sequential execution the minus tag appears only transiently inside
`try_to_detatch` (which, applied to a leaf, always succeeds: all its slots
are null), so between operations every slot is simply null or a child
pointer, and the abandon-on-minus branches of the walks are never taken. -/

inductive incounter_node where
  | mk : Option incounter_node → Option incounter_node → incounter_node

/-- Number of `incounter_node`s in the (sub)tree. -/
def incounter_node.size : incounter_node → Nat
  | incounter_node.mk none none => 1
  | incounter_node.mk none (some r) => 1 + r.size
  | incounter_node.mk (some l) none => 1 + l.size
  | incounter_node.mk (some l) (some r) => 1 + l.size + r.size

/-- Number of nodes hanging off a possibly-null root pointer (the `in`
field of `dyntree_incounter`). -/
def osize : Option incounter_node → Nat
  | none => 0
  | some t => t.size

/-- `incounter_node::is_leaf` (bench.cpp:326-334): true when every child
slot holds null. -/
def incounter_node.is_leaf : incounter_node → Bool
  | incounter_node.mk none none => true
  | _ => false

/-- Load child slot `i % 2` (`children[i].load()`). -/
def incounter_node.ichild : incounter_node → Nat → Option incounter_node
  | incounter_node.mk c0 _, 0 => c0
  | incounter_node.mk _ c1, _ => c1

/-- Store into child slot `i % 2` (a successful CAS or a plain store). -/
def incounter_node.set_ichild :
    incounter_node → Nat → Option incounter_node → incounter_node
  | incounter_node.mk _ c1, 0, v => incounter_node.mk v c1
  | incounter_node.mk c0 _, _, v => incounter_node.mk c0 v

/-- The descent loop of `dyntree_incounter::increment` (bench.cpp:364-391)
from a non-null root, one random choice per slot inspection: a null slot is
CAS-filled with the freshly allocated leaf (`new incounter_node`, both
slots null); a non-null slot is descended through.  `none` means the choice
list ran out first. -/
def inc_walk : incounter_node → List Nat → Option incounter_node
  | _, [] => none
  | nd, c :: cs =>
    match nd.ichild (c % 2) with
    | none => some (nd.set_ichild (c % 2) (some (incounter_node.mk none none)))
    | some t =>
      match inc_walk t cs with
      | some t' => some (nd.set_ichild (c % 2) (some t'))
      | none => none

/-- `dyntree_incounter::increment` (bench.cpp:364-391): when `in` is null
the fresh leaf becomes the root; otherwise the walk installs it at a null
slot along a random path. -/
def dyntree_increment :
    Option incounter_node → List Nat → Option (Option incounter_node)
  | none, _ => some (some (incounter_node.mk none none))
  | some t, cs => (inc_walk t cs).map some

/-- The inner walk of `dyntree_incounter::decrement` (bench.cpp:404-421)
from the root: on a null slot the walk breaks back to the outer loop
(`Sum.inr` carries the remaining choices); on a leaf child it detaches it
(`try_to_detatch` on a leaf succeeds sequentially) and stores null into the
slot, returning the updated tree (`Sum.inl`). -/
def dec_walk : incounter_node → List Nat → Option (incounter_node ⊕ List Nat)
  | _, [] => none
  | nd, c :: cs =>
    match nd.ichild (c % 2) with
    | none => some (Sum.inr cs)
    | some t =>
      if t.is_leaf then some (Sum.inl (nd.set_ichild (c % 2) none))
      else
        match dec_walk t cs with
        | some (Sum.inl t') => some (Sum.inl (nd.set_ichild (c % 2) (some t')))
        | r => r

/-- The outer retry loop of `dyntree_incounter::decrement`
(bench.cpp:393-424): when the root itself is a leaf it is detached and `in`
becomes null (activated); otherwise the inner walk removes some deeper leaf
(not activated) or breaks and the loop retries with the remaining choices.
The fuel bounds the retries; one unit per entry suffices since every retry
consumes at least one choice. -/
def dec_loop :
    Nat → incounter_node → List Nat → Option (Bool × Option incounter_node)
  | 0, _, _ => none
  | fuel + 1, t, cs =>
    if t.is_leaf then some (true, none)
    else
      match dec_walk t cs with
      | some (Sum.inl t') => some (false, some t')
      | some (Sum.inr cs') => dec_loop fuel t cs'
      | none => none

/-- `dyntree_incounter::decrement`; the source asserts `current != nullptr`,
so decrementing an empty in-counter is a failed run (`none`). -/
def dyntree_decrement :
    Option incounter_node → List Nat → Option (Bool × Option incounter_node)
  | none, _ => none
  | some t, cs => dec_loop (cs.length + 1) t cs

/-- `dyntree_incounter::is_activated` (bench.cpp:360-362): the in-tree is
empty. -/
def dyntree_is_activated : Option incounter_node → Bool
  | none => true
  | some _ => false

/-- One operation on the dyntree in-counter together with the random
choices its walks consume. -/
inductive inc_op where
  | increment : List Nat → inc_op
  | decrement : List Nat → inc_op

def count_incs : List inc_op → Nat
  | [] => 0
  | inc_op.increment _ :: ops => count_incs ops + 1
  | inc_op.decrement _ :: ops => count_incs ops

def count_decs : List inc_op → Nat
  | [] => 0
  | inc_op.increment _ :: ops => count_decs ops
  | inc_op.decrement _ :: ops => count_decs ops + 1

/-- Run a sequence of increments and decrements against the in-tree. -/
def dyntree_run :
    Option incounter_node → List inc_op → Option (Option incounter_node)
  | o, [] => some o
  | o, inc_op.increment cs :: ops =>
    match dyntree_increment o cs with
    | some o' => dyntree_run o' ops
    | none => none
  | o, inc_op.decrement cs :: ops =>
    match dyntree_decrement o cs with
    | some (_, o') => dyntree_run o' ops
    | none => none

theorem incounter_node.size_mk (c0 c1 : Option incounter_node) :
    (incounter_node.mk c0 c1).size = 1 + osize c0 + osize c1 := by
  cases c0 <;> cases c1 <;> simp [incounter_node.size, osize]

theorem incounter_node.size_pos (t : incounter_node) : 1 ≤ t.size := by
  obtain ⟨c0, c1⟩ := t
  rw [incounter_node.size_mk]
  omega

theorem incounter_node.is_leaf_size (t : incounter_node)
    (h : t.is_leaf = true) : t.size = 1 := by
  obtain ⟨c0, c1⟩ := t
  cases c0 <;> cases c1 <;> simp_all [incounter_node.is_leaf, incounter_node.size]

theorem inc_walk_size :
    ∀ (cs : List Nat) (nd t' : incounter_node),
      inc_walk nd cs = some t' → t'.size = nd.size + 1 := by
  intro cs
  induction cs with
  | nil => intro nd t' h; simp [inc_walk] at h
  | cons c cs ih =>
    intro nd t' h
    obtain ⟨c0, c1⟩ := nd
    rcases Nat.mod_two_eq_zero_or_one c with hc | hc
    · cases c0 with
      | none =>
        rw [inc_walk, hc] at h
        simp only [incounter_node.ichild, incounter_node.set_ichild,
          Option.some.injEq] at h
        subst h
        cases c1 <;> simp [incounter_node.size] <;> omega
      | some t =>
        rw [inc_walk, hc] at h
        simp only [incounter_node.ichild] at h
        cases hrec : inc_walk t cs with
        | none => rw [hrec] at h; cases h
        | some t2 =>
          rw [hrec] at h
          simp only [incounter_node.set_ichild, Option.some.injEq] at h
          subst h
          have hrec2 := ih t t2 hrec
          cases c1 <;> simp [incounter_node.size] <;> omega
    · cases c1 with
      | none =>
        rw [inc_walk, hc] at h
        simp only [incounter_node.ichild, incounter_node.set_ichild,
          Option.some.injEq] at h
        subst h
        cases c0 <;> simp [incounter_node.size] <;> omega
      | some t =>
        rw [inc_walk, hc] at h
        simp only [incounter_node.ichild] at h
        cases hrec : inc_walk t cs with
        | none => rw [hrec] at h; cases h
        | some t2 =>
          rw [hrec] at h
          simp only [incounter_node.set_ichild, Option.some.injEq] at h
          subst h
          have hrec2 := ih t t2 hrec
          cases c0 <;> simp [incounter_node.size] <;> omega

theorem dec_walk_size :
    ∀ (cs : List Nat) (nd t' : incounter_node),
      dec_walk nd cs = some (Sum.inl t') → nd.size = t'.size + 1 := by
  intro cs
  induction cs with
  | nil => intro nd t' h; simp [dec_walk] at h
  | cons c cs ih =>
    intro nd t' h
    obtain ⟨c0, c1⟩ := nd
    rcases Nat.mod_two_eq_zero_or_one c with hc | hc
    · cases c0 with
      | none =>
        rw [dec_walk, hc] at h
        simp only [incounter_node.ichild] at h
        simp at h
      | some t =>
        rw [dec_walk, hc] at h
        simp only [incounter_node.ichild] at h
        by_cases hl : t.is_leaf = true
        · rw [if_pos hl] at h
          simp only [incounter_node.set_ichild, Option.some.injEq, Sum.inl.injEq] at h
          subst h
          have hsz := incounter_node.is_leaf_size t hl
          cases c1 <;> simp [incounter_node.size] <;> omega
        · rw [if_neg hl] at h
          cases hrec : dec_walk t cs with
          | none => rw [hrec] at h; cases h
          | some r =>
            cases r with
            | inl t2 =>
              rw [hrec] at h
              simp only [incounter_node.set_ichild, Option.some.injEq,
                Sum.inl.injEq] at h
              subst h
              have hrec2 := ih t t2 hrec
              cases c1 <;> simp [incounter_node.size] <;> omega
            | inr cs2 => rw [hrec] at h; simp at h
    · cases c1 with
      | none =>
        rw [dec_walk, hc] at h
        simp only [incounter_node.ichild] at h
        simp at h
      | some t =>
        rw [dec_walk, hc] at h
        simp only [incounter_node.ichild] at h
        by_cases hl : t.is_leaf = true
        · rw [if_pos hl] at h
          simp only [incounter_node.set_ichild, Option.some.injEq, Sum.inl.injEq] at h
          subst h
          have hsz := incounter_node.is_leaf_size t hl
          cases c0 <;> simp [incounter_node.size] <;> omega
        · rw [if_neg hl] at h
          cases hrec : dec_walk t cs with
          | none => rw [hrec] at h; cases h
          | some r =>
            cases r with
            | inl t2 =>
              rw [hrec] at h
              simp only [incounter_node.set_ichild, Option.some.injEq,
                Sum.inl.injEq] at h
              subst h
              have hrec2 := ih t t2 hrec
              cases c0 <;> simp [incounter_node.size] <;> omega
            | inr cs2 => rw [hrec] at h; simp at h

theorem dec_loop_spec :
    ∀ (fuel : Nat) (t : incounter_node) (cs : List Nat) (b : Bool)
      (o' : Option incounter_node),
      dec_loop fuel t cs = some (b, o') →
      t.size = osize o' + 1 ∧ (b = true ↔ o' = none) := by
  intro fuel
  induction fuel with
  | zero => intro t cs b o' h; cases h
  | succ fuel ih =>
    intro t cs b o' h
    rw [dec_loop] at h
    by_cases hl : t.is_leaf = true
    · rw [if_pos hl] at h
      simp only [Option.some.injEq, Prod.mk.injEq] at h
      obtain ⟨hb, ho⟩ := h
      subst hb; subst ho
      exact ⟨by simp [incounter_node.is_leaf_size t hl, osize], by simp⟩
    · rw [if_neg hl] at h
      cases hrec : dec_walk t cs with
      | none => rw [hrec] at h; cases h
      | some r =>
        cases r with
        | inl t2 =>
          rw [hrec] at h
          simp only [Option.some.injEq, Prod.mk.injEq] at h
          obtain ⟨hb, ho⟩ := h
          subst hb; subst ho
          exact ⟨by simpa [osize] using dec_walk_size cs t t2 hrec, by simp⟩
        | inr cs2 =>
          rw [hrec] at h
          exact ih t cs2 b o' h

theorem dyntree_increment_size (o : Option incounter_node) (cs : List Nat)
    (o' : Option incounter_node) (h : dyntree_increment o cs = some o') :
    osize o' = osize o + 1 := by
  cases o with
  | none =>
    simp only [dyntree_increment, Option.some.injEq] at h
    subst h
    simp [osize, incounter_node.size]
  | some t =>
    simp only [dyntree_increment, Option.map_eq_some'] at h
    obtain ⟨t2, hw, ho⟩ := h
    subst ho
    simpa [osize] using inc_walk_size cs t t2 hw

theorem dyntree_decrement_size (o : Option incounter_node) (cs : List Nat)
    (b : Bool) (o' : Option incounter_node)
    (h : dyntree_decrement o cs = some (b, o')) :
    osize o = osize o' + 1 ∧ (b = true ↔ o' = none) := by
  cases o with
  | none => cases h
  | some t =>
    have := dec_loop_spec (cs.length + 1) t cs b o' h
    exact ⟨by simpa [osize] using this.1, this.2⟩

theorem dyntree_run_size :
    ∀ (ops : List inc_op) (o st : Option incounter_node),
      dyntree_run o ops = some st →
      osize st + count_decs ops = osize o + count_incs ops := by
  intro ops
  induction ops with
  | nil =>
    intro o st h
    simp only [dyntree_run, Option.some.injEq] at h
    subst h
    simp [count_incs, count_decs]
  | cons op ops ih =>
    intro o st h
    cases op with
    | increment cs =>
      rw [dyntree_run] at h
      cases hstep : dyntree_increment o cs with
      | none => rw [hstep] at h; cases h
      | some o1 =>
        rw [hstep] at h
        have h1 := dyntree_increment_size o cs o1 hstep
        have h2 := ih o1 st h
        simp only [count_incs, count_decs]
        omega
    | decrement cs =>
      rw [dyntree_run] at h
      cases hstep : dyntree_decrement o cs with
      | none => rw [hstep] at h; cases h
      | some p =>
        obtain ⟨b, o1⟩ := p
        rw [hstep] at h
        have h1 := (dyntree_decrement_size o cs b o1 hstep).1
        have h2 := ih o1 st h
        simp only [count_incs, count_decs]
        omega

/-- C3: each completed dyntree-in-counter operation changes the number of
in-tree nodes by exactly one (increment adds a node, decrement removes one
and reports activated exactly when the tree became empty), and after any
successfully completed sequence of increments and decrements (a decrement
of an empty in-tree hits the source's assertion and is a failed run, so
along a successful run decrements never outnumber increments) the counter
is activated — `is_activated`, i.e. the in-tree is empty — exactly when
the number of increments equals the number of decrements. -/
theorem C3_dyntree_incounter_invariant (ops : List inc_op)
    (st : Option incounter_node) :
    (∀ (o : Option incounter_node) (cs : List Nat) (o' : Option incounter_node),
      dyntree_increment o cs = some o' → osize o' = osize o + 1) ∧
    (∀ (o : Option incounter_node) (cs : List Nat) (b : Bool)
      (o' : Option incounter_node),
      dyntree_decrement o cs = some (b, o') →
        osize o = osize o' + 1 ∧ (b = true ↔ o' = none)) ∧
    (dyntree_run none ops = some st →
      osize st + count_decs ops = count_incs ops ∧
      (dyntree_is_activated st = true ↔ count_incs ops = count_decs ops)) := by
  refine ⟨dyntree_increment_size, dyntree_decrement_size, fun h => ?_⟩
  have hs := dyntree_run_size ops none st h
  rw [show osize none = 0 from rfl] at hs
  refine ⟨by omega, ?_⟩
  cases st with
  | none =>
    rw [show osize none = 0 from rfl] at hs
    simp only [dyntree_is_activated]
    exact ⟨fun _ => by omega, fun _ => trivial⟩
  | some t =>
    have hpos := incounter_node.size_pos t
    rw [show osize (some t) = t.size from rfl] at hs
    simp only [dyntree_is_activated]
    constructor
    · intro hfalse; cases hfalse
    · intro heq; exfalso; omega

theorem C3_witness :
    osize none + count_decs [inc_op.increment [], inc_op.decrement []]
        = count_incs [inc_op.increment [], inc_op.decrement []] ∧
    (dyntree_is_activated none = true ↔
      count_incs [inc_op.increment [], inc_op.decrement []]
        = count_decs [inc_op.increment [], inc_op.decrement []]) :=
  (C3_dyntree_incounter_invariant [inc_op.increment [], inc_op.decrement []]
    none).2.2 rfl

/-! The lazy parallel-for producer
(`direct::lazy_parallel_for_rec`, bench.cpp:896-952).  The node state is
the remaining range [lo, hi) and the join (consumer) node; the loop body is
modelled by recording the indices it is applied to. -/

structure lazy_parallel_for_rec where
  lo : Nat
  hi : Nat
  join : Nat
deriving DecidableEq

/-- One execution of the `process_block` case of
`lazy_parallel_for_rec::body` (bench.cpp:916-925): the body is applied to
the indices `i` with `lo ≤ i < n` where `n = min hi (lo + communication_delay)`,
and `lo` is then set to the final value of the loop counter (`n` when the
loop ran, `lo` when it did not).  The first component lists the indices
processed by this block. -/
def process_block (delay : Nat) (s : lazy_parallel_for_rec) :
    List Nat × lazy_parallel_for_rec :=
  let n := min s.hi (s.lo + delay)
  (List.range' s.lo (n - s.lo), { s with lo := max s.lo n })

/-- The alternation of `process_block` and `repeat_block`
(bench.cpp:914-933): the node starts in `process_block`; after each block
`repeat_block` jumps back to `process_block` while `lo < hi`, otherwise the
node finishes.  The fuel bounds the number of repeats (`none` = ran out);
the first component collects the per-block index lists. -/
def run_for : Nat → Nat → lazy_parallel_for_rec →
    Option (List (List Nat) × lazy_parallel_for_rec)
  | 0, delay, s =>
    let p := process_block delay s
    if p.2.lo < p.2.hi then none else some ([p.1], p.2)
  | fuel + 1, delay, s =>
    let p := process_block delay s
    if p.2.lo < p.2.hi then
      match run_for fuel delay p.2 with
      | some r => some (p.1 :: r.1, r.2)
      | none => none
    else some ([p.1], p.2)

/-- `lazy_parallel_for_rec::split` (bench.cpp:939-945): `mid = (hi + lo) / 2`;
a new sibling node is created with range [mid, hi) and the same join node
(to which it is edged via `add_edge(n, join)`), and the caller keeps
[lo, mid). -/
def lpf_split (s : lazy_parallel_for_rec) :
    lazy_parallel_for_rec × lazy_parallel_for_rec :=
  let mid := (s.hi + s.lo) / 2
  ({ s with hi := mid }, { lo := mid, hi := s.hi, join := s.join })

theorem run_for_spec (delay : Nat) (hd : 0 < delay) :
    ∀ (fuel : Nat) (s : lazy_parallel_for_rec), s.lo ≤ s.hi →
      s.hi - s.lo ≤ fuel * delay →
      ∃ blocks s', run_for fuel delay s = some (blocks, s') ∧
        blocks.flatten = List.range' s.lo (s.hi - s.lo) ∧
        (∀ b ∈ blocks, b.length ≤ delay) ∧
        s'.lo = s.hi ∧ s'.hi = s.hi ∧ s'.join = s.join := by
  intro fuel
  induction fuel with
  | zero =>
    intro s hlh hf
    have heq : s.hi = s.lo := by omega
    have hproc : process_block delay s = ([], s) := by
      simp only [process_block]
      have h1 : min s.hi (s.lo + delay) - s.lo = 0 := by omega
      have h2 : max s.lo (min s.hi (s.lo + delay)) = s.lo := by omega
      rw [h1, h2]
      simp [List.range']
    refine ⟨[[]], s, ?_, by simp [heq], ?_, heq.symm, rfl, rfl⟩
    · simp [run_for, hproc, heq]
    · intro b hb
      simp at hb
      subst hb
      simp
  | succ fuel ih =>
    intro s hlh hf
    by_cases hstop : s.lo + delay < s.hi
    · have hproc : process_block delay s
          = (List.range' s.lo delay, { s with lo := s.lo + delay }) := by
        simp only [process_block]
        have h1 : min s.hi (s.lo + delay) - s.lo = delay := by omega
        have h2 : max s.lo (min s.hi (s.lo + delay)) = s.lo + delay := by omega
        rw [h1, h2]
      obtain ⟨blocks, s', hrun, hflat, hlen, hlo, hhi, hjoin⟩ :=
        ih { s with lo := s.lo + delay }
          (show s.lo + delay ≤ s.hi from by omega)
          (by
            have hmul : (fuel + 1) * delay = fuel * delay + delay := by ring
            show s.hi - (s.lo + delay) ≤ fuel * delay
            omega)
      refine ⟨List.range' s.lo delay :: blocks, s', ?_, ?_, ?_,
        by rw [hlo], by rw [hhi], by rw [hjoin]⟩
      · simp [run_for, hproc, hstop, hrun]
      · simp only [List.flatten_cons, hflat]
        have hap := List.range'_append s.lo delay (s.hi - (s.lo + delay)) 1
        rw [show s.lo + 1 * delay = s.lo + delay from by omega] at hap
        rw [show s.hi - (s.lo + delay) + delay = s.hi - s.lo from by omega] at hap
        simpa using hap
      · intro b hb
        rcases List.mem_cons.mp hb with hb | hb
        · subst hb; simp
        · exact hlen b hb
    · have hproc : process_block delay s
          = (List.range' s.lo (s.hi - s.lo), { s with lo := s.hi }) := by
        simp only [process_block]
        have h1 : min s.hi (s.lo + delay) - s.lo = s.hi - s.lo := by omega
        have h2 : max s.lo (min s.hi (s.lo + delay)) = s.hi := by omega
        rw [h1, h2]
      refine ⟨[List.range' s.lo (s.hi - s.lo)], { s with lo := s.hi },
        ?_, by simp, ?_, rfl, rfl, rfl⟩
      · simp [run_for, hproc]
      · intro b hb
        simp at hb
        subst hb
        simp
        omega

/-- C8: starting from range [lo, hi) with lo ≤ hi and a positive
communication delay, the lazy parallel-for producer applies the loop body
to each index of [lo, hi) exactly once (the concatenation of the per-block
index lists is exactly the range, without repetition), processing at most
`communication_delay` indices per execution of its process block; and
`split` bisects the remaining range at `mid = (hi + lo) / 2`, keeping
[lo, mid) for the caller and handing [mid, hi) to a new sibling with the
same join (consumer) node, the two halves covering the remainder without
overlap. -/
theorem C8_lazy_parallel_for (delay fuel : Nat) (s : lazy_parallel_for_rec)
    (hd : 0 < delay) (hlh : s.lo ≤ s.hi) (hf : s.hi - s.lo ≤ fuel * delay) :
    (∃ blocks s', run_for fuel delay s = some (blocks, s') ∧
      blocks.flatten = List.range' s.lo (s.hi - s.lo) ∧
      (∀ b ∈ blocks, b.length ≤ delay) ∧
      s'.lo = s.hi ∧ s'.join = s.join) ∧
    ((lpf_split s).1.lo = s.lo ∧ (lpf_split s).1.hi = (s.hi + s.lo) / 2 ∧
     (lpf_split s).1.join = s.join ∧
     (lpf_split s).2.lo = (s.hi + s.lo) / 2 ∧ (lpf_split s).2.hi = s.hi ∧
     (lpf_split s).2.join = s.join ∧
     List.range' s.lo ((s.hi + s.lo) / 2 - s.lo) ++
       List.range' ((s.hi + s.lo) / 2) (s.hi - (s.hi + s.lo) / 2)
       = List.range' s.lo (s.hi - s.lo) ∧
     (∀ i, i ∈ List.range' s.lo ((s.hi + s.lo) / 2 - s.lo) →
       i ∉ List.range' ((s.hi + s.lo) / 2) (s.hi - (s.hi + s.lo) / 2))) := by
  constructor
  · obtain ⟨blocks, s', h1, h2, h3, h4, _, h6⟩ := run_for_spec delay hd fuel s hlh hf
    exact ⟨blocks, s', h1, h2, h3, h4, h6⟩
  · have hmidlo : s.lo ≤ (s.hi + s.lo) / 2 := by omega
    have hmidhi : (s.hi + s.lo) / 2 ≤ s.hi := by omega
    refine ⟨rfl, rfl, rfl, rfl, rfl, rfl, ?_, ?_⟩
    · have hap := List.range'_append s.lo ((s.hi + s.lo) / 2 - s.lo)
        (s.hi - (s.hi + s.lo) / 2) 1
      simp only [Nat.one_mul] at hap
      rw [show s.lo + ((s.hi + s.lo) / 2 - s.lo) = (s.hi + s.lo) / 2 from by omega]
        at hap
      rw [hap]
      congr 1
      omega
    · intro i hi1 hi2
      rw [List.mem_range'_1] at hi1 hi2
      omega

theorem C8_witness :
    (∃ blocks s', run_for 2 3 ⟨0, 5, 9⟩ = some (blocks, s') ∧
      blocks.flatten = List.range' 0 5 ∧
      (∀ b ∈ blocks, b.length ≤ 3) ∧
      s'.lo = 5 ∧ s'.join = 9) ∧
    ((lpf_split ⟨0, 5, 9⟩).1.lo = 0 ∧ (lpf_split ⟨0, 5, 9⟩).1.hi = 2 ∧
     (lpf_split ⟨0, 5, 9⟩).1.join = 9 ∧
     (lpf_split ⟨0, 5, 9⟩).2.lo = 2 ∧ (lpf_split ⟨0, 5, 9⟩).2.hi = 5 ∧
     (lpf_split ⟨0, 5, 9⟩).2.join = 9 ∧
     List.range' 0 2 ++ List.range' 2 3 = List.range' 0 5 ∧
     (∀ i, i ∈ List.range' 0 2 → i ∉ List.range' 2 3)) := by
  have h := C8_lazy_parallel_for 3 2 ⟨0, 5, 9⟩ (by decide) (by decide) (by decide)
  exact h

/-! The port-passing in-counter (`portpassing::incounter`,
bench.cpp:1298-1398).  `increment(port)` (bench.cpp:1347-1360) splits a
leaf port into two fresh `incounter_node`s whose parent links point at it,
so the live ports form a binary tree in which every internal node has
exactly two children; a leaf is a port held by a task.  The per-node
`nb_removed_children` field only ever moves 0 → 1 (by CAS) and is modelled
as a boolean mark on internal nodes.  `decrement(port)`
(bench.cpp:1366-1388) walks the parent chain up from the port: at each
ancestor, a walk that finds the field 0 CASes it to 1 and stops (not
activated); a walk that finds it non-zero continues upward; a walk that
passes every ancestor reaches the node whose parent is null and reports
activated. -/

inductive ptree where
  | leaf : ptree
  | node : Bool → ptree → ptree → ptree

/-- Gate logic of one step of the upward walk at an ancestor with mark `m`
reached by a walk that survived below it (`surv`): result is (does the walk
survive past this node, the node's new mark).  A non-surviving walk leaves
the node untouched. -/
def gate (m surv : Bool) : Bool × Bool :=
  if surv then (if m then (true, m) else (false, true)) else (surv, m)

/-- `portpassing::incounter::decrement` (bench.cpp:1366-1388) on the port
at path `p` (false = left child, true = right child), processed bottom-up:
the innermost return is the port itself (the walk trivially survives to its
own level); each ancestor then applies `gate`.  The final boolean is
`activated` (the walk reached the null-parent node); the tree records the
updated `nb_removed_children` marks.  `none` = the path does not address a
leaf. -/
def pp_decrement : ptree → List Bool → Option (Bool × ptree)
  | ptree.leaf, [] => some (true, ptree.leaf)
  | ptree.node m l r, false :: p =>
    match pp_decrement l p with
    | some (surv, l') => some ((gate m surv).1, ptree.node (gate m surv).2 l' r)
    | none => none
  | ptree.node m l r, true :: p =>
    match pp_decrement r p with
    | some (surv, r') => some ((gate m surv).1, ptree.node (gate m surv).2 l r')
    | none => none
  | _, _ => none

/-- Every ancestor of the port at path `p` (including the root node) is
already marked: exactly the condition for the walk to pass them all and
reach the node whose parent link is null. -/
def ancestors_marked : ptree → List Bool → Bool
  | ptree.leaf, [] => true
  | ptree.node m l _, false :: p => m && ancestors_marked l p
  | ptree.node m _ r, true :: p => m && ancestors_marked r p
  | _, _ => false

/-- A tree as built by increments alone: no sibling has departed yet, every
`nb_removed_children` is 0. -/
def all_unmarked : ptree → Bool
  | ptree.leaf => true
  | ptree.node m l r => !m && all_unmarked l && all_unmarked r

/-- The paths of all leaf ports of the tree. -/
def ptree.paths : ptree → List (List Bool)
  | ptree.leaf => [[]]
  | ptree.node _ l r =>
    (l.paths.map (fun p => false :: p)) ++ (r.paths.map (fun p => true :: p))

/-- Run one decrement per listed path, in order, counting how many report
activated. -/
def pp_run : ptree → List (List Bool) → Option (Nat × ptree)
  | t, [] => some (0, t)
  | t, p :: ps =>
    match pp_decrement t p with
    | some (surv, t') =>
      match pp_run t' ps with
      | some (k, t'') => some ((if surv then 1 else 0) + k, t'')
      | none => none
    | none => none

/-- Select the tails of the paths that descend into the `b` child. -/
def path_tail_if (b : Bool) (q : List Bool) : Option (List Bool) :=
  match q with
  | x :: p => if x = b then some p else none
  | [] => none

def projL (ps : List (List Bool)) : List (List Bool) :=
  ps.filterMap (path_tail_if false)

def projR (ps : List (List Bool)) : List (List Bool) :=
  ps.filterMap (path_tail_if true)

theorem filterMap_tail_same (b : Bool) (xs : List (List Bool)) :
    List.filterMap (path_tail_if b ∘ fun p => b :: p) xs = xs := by
  induction xs with
  | nil => rfl
  | cons x xs ih => simp [Function.comp, path_tail_if, ih]

theorem filterMap_tail_other (b c : Bool) (h : c ≠ b) (xs : List (List Bool)) :
    List.filterMap (path_tail_if b ∘ fun p => c :: p) xs = [] := by
  induction xs with
  | nil => rfl
  | cons x xs ih => simp [Function.comp, path_tail_if, h, ih]

theorem paths_ne_nil (m : Bool) (l r : ptree) :
    ∀ q ∈ (ptree.node m l r).paths, q ≠ [] := by
  intro q hq
  simp only [ptree.paths, List.mem_append, List.mem_map] at hq
  rcases hq with ⟨p, _, rfl⟩ | ⟨p, _, rfl⟩ <;> simp

theorem pp_decrement_reaches_root :
    ∀ (t : ptree) (p : List Bool) (surv : Bool) (t' : ptree),
      pp_decrement t p = some (surv, t') →
      (surv = true ↔ ancestors_marked t p = true) := by
  intro t
  induction t with
  | leaf =>
    intro p surv t' h
    cases p with
    | nil =>
      simp only [pp_decrement, Option.some.injEq, Prod.mk.injEq] at h
      simp [← h.1, ancestors_marked]
    | cons x xs => cases h
  | node m l r ihl ihr =>
    intro p surv t' h
    cases p with
    | nil => cases h
    | cons qb qp =>
      cases qb with
      | false =>
        rw [pp_decrement] at h
        cases hd : pp_decrement l qp with
        | none => rw [hd] at h; cases h
        | some pr =>
          obtain ⟨s1, l1⟩ := pr
          rw [hd] at h
          simp only [Option.some.injEq, Prod.mk.injEq] at h
          have hAM := ihl qp s1 l1 hd
          rw [← h.1]
          cases s1 <;> cases m <;> simp_all [gate, ancestors_marked]
      | true =>
        rw [pp_decrement] at h
        cases hd : pp_decrement r qp with
        | none => rw [hd] at h; cases h
        | some pr =>
          obtain ⟨s1, r1⟩ := pr
          rw [hd] at h
          simp only [Option.some.injEq, Prod.mk.injEq] at h
          have hAM := ihr qp s1 r1 hd
          rw [← h.1]
          cases s1 <;> cases m <;> simp_all [gate, ancestors_marked]

theorem pp_run_node :
    ∀ (sched : List (List Bool)) (m : Bool) (l r : ptree) (a b : Nat)
      (l' r' : ptree),
      (∀ q ∈ sched, q ≠ []) →
      pp_run l (projL sched) = some (a, l') →
      pp_run r (projR sched) = some (b, r') →
      ∃ m', pp_run (ptree.node m l r) sched
          = some ((if m then a + b else a + b - min 1 (a + b)),
              ptree.node m' l' r')
        ∧ m' = (m || decide (1 ≤ a + b)) := by
  intro sched
  induction sched with
  | nil =>
    intro m l r a b l' r' hne hL hR
    simp only [projL, projR, List.filterMap_nil, pp_run, Option.some.injEq,
      Prod.mk.injEq] at hL hR
    obtain ⟨ha, hl⟩ := hL
    obtain ⟨hb, hr⟩ := hR
    subst ha; subst hb; subst hl; subst hr
    exact ⟨m, by cases m <;> simp [pp_run], by simp⟩
  | cons q ps ih =>
    intro m l r a b l' r' hne hL hR
    have hqne : q ≠ [] := hne q (List.mem_cons_self q ps)
    cases q with
    | nil => exact absurd rfl hqne
    | cons qb qp =>
      have hne' : ∀ x ∈ ps, x ≠ [] := fun x hx => hne x (List.mem_cons_of_mem _ hx)
      cases qb with
      | false =>
        rw [show projL ((false :: qp) :: ps) = qp :: projL ps from by
              simp [projL, path_tail_if]] at hL
        rw [show projR ((false :: qp) :: ps) = projR ps from by
              simp [projR, path_tail_if]] at hR
        rw [pp_run] at hL
        cases hd : pp_decrement l qp with
        | none => simp only [hd] at hL; exact Option.noConfusion hL
        | some pr =>
          obtain ⟨s1, l1⟩ := pr
          simp only [hd] at hL
          cases hrest : pp_run l1 (projL ps) with
          | none => simp only [hrest] at hL; exact Option.noConfusion hL
          | some pr2 =>
            obtain ⟨a1, l1'⟩ := pr2
            simp only [hrest, Option.some.injEq, Prod.mk.injEq] at hL
            obtain ⟨ha, hl'⟩ := hL
            rw [hl'] at hrest
            have hdec : pp_decrement (ptree.node m l r) (false :: qp)
                = some ((gate m s1).1, ptree.node (gate m s1).2 l1 r) := by
              rw [pp_decrement, hd]
            obtain ⟨m', hm_run, hm_eq⟩ :=
              ih (gate m s1).2 l1 r a1 b l' r' hne' hrest hR
            refine ⟨m', ?_, ?_⟩
            · simp only [pp_run, hdec, hm_run]
              have hcount : (if (gate m s1).1 then (1 : Nat) else 0)
                  + (if (gate m s1).2 then a1 + b else a1 + b - min 1 (a1 + b))
                  = if m then a + b else a + b - min 1 (a + b) := by
                cases s1 <;> cases m <;> (simp [gate] at ha ⊢; omega)
              rw [hcount]
            · rw [hm_eq]
              cases s1 <;> cases m <;> (simp [gate, decide_eq_true_eq] at ha ⊢; try omega)
      | true =>
        rw [show projR ((true :: qp) :: ps) = qp :: projR ps from by
              simp [projR, path_tail_if]] at hR
        rw [show projL ((true :: qp) :: ps) = projL ps from by
              simp [projL, path_tail_if]] at hL
        rw [pp_run] at hR
        cases hd : pp_decrement r qp with
        | none => simp only [hd] at hR; exact Option.noConfusion hR
        | some pr =>
          obtain ⟨s1, r1⟩ := pr
          simp only [hd] at hR
          cases hrest : pp_run r1 (projR ps) with
          | none => simp only [hrest] at hR; exact Option.noConfusion hR
          | some pr2 =>
            obtain ⟨b1, r1'⟩ := pr2
            simp only [hrest, Option.some.injEq, Prod.mk.injEq] at hR
            obtain ⟨hb, hr'⟩ := hR
            rw [hr'] at hrest
            have hdec : pp_decrement (ptree.node m l r) (true :: qp)
                = some ((gate m s1).1, ptree.node (gate m s1).2 l r1) := by
              rw [pp_decrement, hd]
            obtain ⟨m', hm_run, hm_eq⟩ :=
              ih (gate m s1).2 l r1 a b1 l' r' hne' hL hrest
            refine ⟨m', ?_, ?_⟩
            · simp only [pp_run, hdec, hm_run]
              have hcount : (if (gate m s1).1 then (1 : Nat) else 0)
                  + (if (gate m s1).2 then a + b1 else a + b1 - min 1 (a + b1))
                  = if m then a + b else a + b - min 1 (a + b) := by
                cases s1 <;> cases m <;> (simp [gate] at hb ⊢; omega)
              rw [hcount]
            · rw [hm_eq]
              cases s1 <;> cases m <;> (simp [gate, decide_eq_true_eq] at hb ⊢; try omega)

theorem pp_run_perm :
    ∀ (t : ptree), all_unmarked t = true →
      ∀ sched : List (List Bool), sched.Perm t.paths →
        ∃ u, pp_run t sched = some (1, u) := by
  intro t
  induction t with
  | leaf =>
    intro _ sched hperm
    have hs : sched = [[]] := List.perm_singleton.mp hperm
    subst hs
    exact ⟨ptree.leaf, rfl⟩
  | node m l r ihl ihr =>
    intro hun sched hperm
    simp only [all_unmarked, Bool.and_eq_true, Bool.not_eq_true'] at hun
    obtain ⟨⟨hm, hul⟩, hur⟩ := hun
    subst hm
    have hLp : (projL sched).Perm l.paths := by
      have hpf := hperm.filterMap (path_tail_if false)
      have hcalc : List.filterMap (path_tail_if false)
          ((ptree.node false l r).paths) = l.paths := by
        simp [ptree.paths, List.filterMap_append, filterMap_tail_same,
          filterMap_tail_other false true (by decide)]
      rw [hcalc] at hpf
      exact hpf
    have hRp : (projR sched).Perm r.paths := by
      have hpf := hperm.filterMap (path_tail_if true)
      have hcalc : List.filterMap (path_tail_if true)
          ((ptree.node false l r).paths) = r.paths := by
        simp [ptree.paths, List.filterMap_append, filterMap_tail_same,
          filterMap_tail_other true false (by decide)]
      rw [hcalc] at hpf
      exact hpf
    obtain ⟨l', hl'⟩ := ihl hul (projL sched) hLp
    obtain ⟨r', hr'⟩ := ihr hur (projR sched) hRp
    have hne : ∀ q ∈ sched, q ≠ [] := by
      intro q hq
      exact paths_ne_nil false l r q (hperm.mem_iff.mp hq)
    obtain ⟨m', hrun, _⟩ := pp_run_node sched false l r 1 1 l' r' hne hl' hr'
    refine ⟨ptree.node m' l' r', ?_⟩
    rw [hrun]
    norm_num

/-- C7: a port-passing decrement reports activated exactly when its walk up
the parent chain passes every ancestor (each already recording a departed
sibling) and so reaches the node whose parent link is null; and for any
port tree built by increments (every removed-children field still 0), if
decrement is invoked exactly once per leaf port, in any order, then exactly
one of those invocations reports activated. -/
theorem C7_portpassing_decrement (t : ptree) (p : List Bool) (surv : Bool)
    (t' : ptree) (sched : List (List Bool)) :
    (pp_decrement t p = some (surv, t') →
      (surv = true ↔ ancestors_marked t p = true)) ∧
    (all_unmarked t = true → sched.Perm t.paths →
      ∃ u, pp_run t sched = some (1, u)) :=
  ⟨pp_decrement_reaches_root t p surv t', fun hun hperm => pp_run_perm t hun sched hperm⟩

theorem C7_witness :
    ((true : Bool) = true ↔ ancestors_marked ptree.leaf [] = true) ∧
    (∃ u, pp_run (ptree.node false ptree.leaf ptree.leaf) [[false], [true]]
      = some (1, u)) :=
  ⟨(C7_portpassing_decrement ptree.leaf [] true ptree.leaf [[]]).1 rfl,
   (C7_portpassing_decrement (ptree.node false ptree.leaf ptree.leaf) [] true
      ptree.leaf [[false], [true]]).2 rfl
      (by
        have hp : (ptree.node false ptree.leaf ptree.leaf).paths
            = [[false], [true]] := rfl
        rw [hp])⟩

/-! The port-passing out-set fork discipline (`portpassing::outset::fork2`,
bench.cpp:1462-1474, and `portpassing::fork_out_ports_for`,
bench.cpp:1795-1814).  Out-sets and out-port nodes are natural-number
identifiers; a heap maps each port-node id to its two child slots.  A slot
holds null, a frozen-tagged word (installed by the notify walk,
bench.cpp:1989-1997, while the out-set is being finished), or a child
pointer; `fork2`'s CAS from null fails on any non-null contents.  Port maps
(`outport_map_type`) are association lists from out-set id to port id. -/

inductive pp_slot where
  | null : pp_slot
  | frozen : pp_slot
  | child : Nat → pp_slot
deriving DecidableEq

structure pp_outset_node where
  slot0 : pp_slot
  slot1 : pp_slot
deriving DecidableEq

structure pp_heap where
  nodes : Nat → pp_outset_node
  next : Nat

def heap_update (h : pp_heap) (id : Nat) (nd : pp_outset_node) : pp_heap :=
  { h with nodes := fun k => if k = id then nd else h.nodes k }

/-- Allocate a fresh `outset_node` (both slots null); freed nodes are not
reused, so fresh ids are taken from a monotone counter. -/
def heap_alloc (h : pp_heap) : Nat × pp_heap :=
  (h.next,
   { nodes := fun k =>
       if k = h.next then ⟨pp_slot.null, pp_slot.null⟩ else h.nodes k,
     next := h.next + 1 })

/-- `outset::fork2` (bench.cpp:1462-1474) on port node `port`: for `i = 1`
then `i = 0`, allocate a fresh node and CAS child slot `i` from null to it;
a CAS that finds the slot non-null makes fork2 return null (modelled as
`none`) — the branch already installed at slot 1 is not rolled back, only
the branch whose CAS lost is freed (the free itself is not modelled; the
node stays in the heap, unreferenced).  On success, returns
`(branches[0], branches[1])`. -/
def fork2 (h : pp_heap) (port : Nat) : Option (Nat × Nat) × pp_heap :=
  let a1 := heap_alloc h
  let b1 := a1.1
  let h1 := a1.2
  let nd := h1.nodes port
  if nd.slot1 = pp_slot.null then
    let h2 := heap_update h1 port { nd with slot1 := pp_slot.child b1 }
    let a0 := heap_alloc h2
    let b0 := a0.1
    let h3 := a0.2
    let nd2 := h3.nodes port
    if nd2.slot0 = pp_slot.null then
      (some (b0, b1), heap_update h3 port { nd2 with slot0 := pp_slot.child b0 })
    else (none, h3)
  else (none, h1)

def map_lookup (mp : List (Nat × Nat)) (k : Nat) : Option Nat :=
  match mp with
  | [] => none
  | (k', v) :: rest => if k' = k then some v else map_lookup rest k

/-- Assignment to an existing key (`parent_ports[out] = ...` for a key the
loop found present): values change, the key set does not. -/
def map_update (mp : List (Nat × Nat)) (k v : Nat) : List (Nat × Nat) :=
  mp.map (fun kv => if kv.1 = k then (k, v) else kv)

def map_erase (mp : List (Nat × Nat)) (k : Nat) : List (Nat × Nat) :=
  mp.filter (fun kv => kv.1 != k)

/-- The loop of `portpassing::fork_out_ports_for` (bench.cpp:1795-1809):
for each entry of the parent map whose key is also in the child map, call
`fork2` on the parent's port; on failure record the out-set in `to_erase`,
on success store the two fresh ports into the two maps.  The iteration runs
over the parent map's initial entries: the C++ loop iterates the live
`unordered_map` but only ever assigns to existing keys, never inserting or
erasing during the loop, so the traversed key set is the initial one. -/
def fork_out_ports_loop (h : pp_heap) (entries : List (Nat × Nat))
    (parent child : List (Nat × Nat)) (toErase : List Nat) :
    pp_heap × List (Nat × Nat) × List (Nat × Nat) × List Nat :=
  match entries with
  | [] => (h, parent, child, toErase)
  | (o, p) :: rest =>
    match map_lookup child o with
    | none => fork_out_ports_loop h rest parent child toErase
    | some _ =>
      match fork2 h p with
      | (none, h') => fork_out_ports_loop h' rest parent child (o :: toErase)
      | (some bb, h') =>
        fork_out_ports_loop h' rest (map_update parent o bb.1)
          (map_update child o bb.2) toErase

/-- `portpassing::fork_out_ports_for` (bench.cpp:1795-1814): run the loop,
then erase every recorded out-set from both maps. -/
def fork_out_ports_for (h : pp_heap) (parent child : List (Nat × Nat)) :
    pp_heap × List (Nat × Nat) × List (Nat × Nat) :=
  let r := fork_out_ports_loop h parent parent child []
  (r.1, r.2.2.2.foldl map_erase r.2.1, r.2.2.2.foldl map_erase r.2.2.1)

/-- The out-port half of `portpassing::propagate_ports_for`
(bench.cpp:1816-1823) in the default port-passing mode: the child's
out-port map is assigned a copy of the parent's
(`child_ports = parent_ports`, bench.cpp:1768-1770), then
`fork_out_ports_for` runs on the two maps. -/
def propagate_out_ports_default (h : pp_heap) (parent : List (Nat × Nat)) :
    pp_heap × List (Nat × Nat) × List (Nat × Nat) :=
  fork_out_ports_for h parent parent

theorem map_lookup_isSome_of_mem (mp : List (Nat × Nat)) (k v : Nat)
    (h : (k, v) ∈ mp) : (map_lookup mp k).isSome = true := by
  induction mp with
  | nil => cases h
  | cons e rest ih =>
    obtain ⟨a, b⟩ := e
    rcases List.mem_cons.mp h with he | he
    · injection he with h1 h2
      subst h1
      simp [map_lookup]
    · by_cases hak : a = k
      · simp [map_lookup, hak]
      · simp only [map_lookup, if_neg hak]
        exact ih he

theorem map_lookup_update_isSome (mp : List (Nat × Nat)) (k v k' : Nat) :
    (map_lookup (map_update mp k v) k').isSome = (map_lookup mp k').isSome := by
  induction mp with
  | nil => rfl
  | cons e rest ih =>
    obtain ⟨a, b⟩ := e
    simp only [map_update, List.map_cons]
    by_cases hak : a = k
    · subst hak
      rw [if_pos rfl]
      by_cases hk' : a = k'
      · subst hk'
        simp [map_lookup]
      · simp only [map_lookup, if_neg hk']
        exact ih
    · rw [if_neg hak]
      by_cases hk' : a = k'
      · subst hk'
        simp [map_lookup]
      · simp only [map_lookup, if_neg hk']
        exact ih

theorem map_lookup_erase_self (mp : List (Nat × Nat)) (k : Nat) :
    map_lookup (map_erase mp k) k = none := by
  induction mp with
  | nil => rfl
  | cons e rest ih =>
    obtain ⟨a, b⟩ := e
    by_cases hak : a = k
    · subst hak
      simpa [map_erase] using ih
    · simp only [map_erase, List.filter_cons] at ih ⊢
      rw [if_pos (by simpa [bne_iff_ne] using hak)]
      simp only [map_lookup, if_neg hak]
      simpa [map_erase] using ih

theorem map_lookup_erase_none (mp : List (Nat × Nat)) (k k' : Nat)
    (h : map_lookup mp k = none) : map_lookup (map_erase mp k') k = none := by
  induction mp with
  | nil => rfl
  | cons e rest ih =>
    obtain ⟨a, b⟩ := e
    by_cases hak : a = k
    · simp [map_lookup, hak] at h
    · simp only [map_lookup, if_neg hak] at h
      have hrec := ih h
      by_cases hak' : a = k'
      · subst hak'
        simpa [map_erase] using hrec
      · simp only [map_erase, List.filter_cons] at hrec ⊢
        rw [if_pos (by simpa [bne_iff_ne] using hak')]
        simp only [map_lookup, if_neg hak]
        simpa [map_erase] using hrec

theorem foldl_erase_none (toE : List Nat) :
    ∀ (mp : List (Nat × Nat)) (k : Nat), map_lookup mp k = none →
      map_lookup (toE.foldl map_erase mp) k = none := by
  induction toE with
  | nil => intro mp k h; exact h
  | cons e rest ih =>
    intro mp k h
    exact ih _ k (map_lookup_erase_none mp k e h)

theorem foldl_erase_mem (toE : List Nat) :
    ∀ (mp : List (Nat × Nat)) (k : Nat), k ∈ toE →
      map_lookup (toE.foldl map_erase mp) k = none := by
  induction toE with
  | nil => intro mp k h; cases h
  | cons e rest ih =>
    intro mp k h
    rcases List.mem_cons.mp h with rfl | h2
    · exact foldl_erase_none rest (map_erase mp k) k (map_lookup_erase_self mp k)
    · exact ih _ k h2

theorem fork2_next_mono (h : pp_heap) (p : Nat) :
    h.next ≤ (fork2 h p).2.next := by
  simp only [fork2, heap_alloc, heap_update]
  split_ifs <;> simp <;> omega

theorem fork2_frame (h : pp_heap) (p q : Nat) (hq : q ≠ p) (hlt : q < h.next) :
    (fork2 h p).2.nodes q = h.nodes q := by
  have hq1 : q ≠ h.next := by omega
  have hq2 : q ≠ h.next + 1 := by omega
  simp only [fork2, heap_alloc, heap_update]
  split_ifs <;> simp [hq, hq1, hq2]

theorem fork2_fail (h : pp_heap) (p : Nat) (hp : p < h.next)
    (hf : (h.nodes p).slot1 ≠ pp_slot.null ∨ (h.nodes p).slot0 ≠ pp_slot.null) :
    (fork2 h p).1 = none := by
  have hpne : p ≠ h.next := by omega
  have hpne2 : p ≠ h.next + 1 := by omega
  simp only [fork2, heap_alloc, heap_update, hpne, hpne2, ite_false,
    eq_self_iff_true, ite_true]
  split_ifs with h1 h2
  · exfalso
    rcases hf with hf | hf
    · exact hf h1
    · exact hf h2
  · rfl
  · rfl

theorem fork_out_ports_loop_toErase_mem :
    ∀ (entries : List (Nat × Nat)) (h : pp_heap)
      (parent child : List (Nat × Nat)) (toE : List Nat) (k : Nat), k ∈ toE →
      k ∈ (fork_out_ports_loop h entries parent child toE).2.2.2 := by
  intro entries
  induction entries with
  | nil => intro h p c toE k hk; exact hk
  | cons e rest ih =>
    intro h p c toE k hk
    obtain ⟨o, pt⟩ := e
    rw [fork_out_ports_loop]
    cases hl : map_lookup c o with
    | none =>
      simp only [hl]
      exact ih h p c toE k hk
    | some v =>
      simp only [hl]
      cases hf : fork2 h pt with
      | mk res h' =>
        cases res with
        | none =>
          simp only [hf]
          exact ih h' p c (o :: toE) k (List.mem_cons_of_mem o hk)
        | some bb =>
          simp only [hf]
          exact ih h' (map_update p o bb.1) (map_update c o bb.2) toE k hk

theorem fork_out_ports_loop_erases :
    ∀ (entries : List (Nat × Nat)) (h : pp_heap)
      (parent child : List (Nat × Nat)) (toE : List Nat) (out port : Nat),
      (out, port) ∈ entries →
      (entries.map Prod.fst).Nodup →
      (∀ e ∈ entries, e.2 < h.next) →
      (∀ e ∈ entries, e.1 ≠ out → e.2 ≠ port) →
      ((h.nodes port).slot1 ≠ pp_slot.null ∨ (h.nodes port).slot0 ≠ pp_slot.null) →
      (map_lookup child out).isSome = true →
      out ∈ (fork_out_ports_loop h entries parent child toE).2.2.2 := by
  intro entries
  induction entries with
  | nil => intro h p c toE out port hmem; cases hmem
  | cons e rest ih =>
    intro h p c toE out port hmem hnodup hports hdist hfail hsome
    obtain ⟨o, pt⟩ := e
    rcases List.mem_cons.mp hmem with he | he
    · injection he with h1 h2
      subst h1; subst h2
      obtain ⟨v, hv⟩ := Option.isSome_iff_exists.mp hsome
      rw [fork_out_ports_loop]
      simp only [hv]
      have hplt : port < h.next := hports (out, port) (List.mem_cons_self _ _)
      have hf1 : (fork2 h port).1 = none := fork2_fail h port hplt hfail
      cases hf : fork2 h port with
      | mk res h' =>
        have hres : res = none := by rw [← hf1, hf]
        subst hres
        simp only [hf]
        exact fork_out_ports_loop_toErase_mem rest h' p c (out :: toE) out
          (List.mem_cons_self _ _)
    · have hone : o ≠ out := by
        intro hcontra
        subst hcontra
        have : o ∈ rest.map Prod.fst := List.mem_map_of_mem Prod.fst he
        exact (List.nodup_cons.mp hnodup).1 this
      have hptp : pt ≠ port :=
        hdist (o, pt) (List.mem_cons_self _ _) hone
      have hplt : port < h.next := hports (out, port) (List.mem_cons_of_mem _ he)
      rw [fork_out_ports_loop]
      cases hl : map_lookup c o with
      | none =>
        simp only [hl]
        exact ih h p c toE out port he (List.nodup_cons.mp hnodup).2
          (fun x hx => hports x (List.mem_cons_of_mem _ hx))
          (fun x hx => hdist x (List.mem_cons_of_mem _ hx)) hfail hsome
      | some v =>
        simp only [hl]
        cases hf : fork2 h pt with
        | mk res h' =>
          have hframe : h'.nodes port = h.nodes port := by
            rw [show h' = (fork2 h pt).2 from by rw [hf]]
            exact fork2_frame h pt port (Ne.symm hptp) hplt
          have hnext : h.next ≤ h'.next := by
            rw [show h' = (fork2 h pt).2 from by rw [hf]]
            exact fork2_next_mono h pt
          have hports' : ∀ x ∈ rest, x.2 < h'.next := fun x hx =>
            lt_of_lt_of_le (hports x (List.mem_cons_of_mem _ hx)) hnext
          have hfail' : (h'.nodes port).slot1 ≠ pp_slot.null ∨
              (h'.nodes port).slot0 ≠ pp_slot.null := by rw [hframe]; exact hfail
          cases res with
          | none =>
            simp only [hf]
            exact ih h' p c (o :: toE) out port he (List.nodup_cons.mp hnodup).2
              hports' (fun x hx => hdist x (List.mem_cons_of_mem _ hx)) hfail' hsome
          | some bb =>
            simp only [hf]
            have hsome' : (map_lookup (map_update c o bb.2) out).isSome = true := by
              rw [map_lookup_update_isSome]; exact hsome
            exact ih h' (map_update p o bb.1) (map_update c o bb.2) toE out port he
              (List.nodup_cons.mp hnodup).2 hports'
              (fun x hx => hdist x (List.mem_cons_of_mem _ hx)) hfail' hsome'

/-- C10: in the port-passing variant, when the out-ports of a parent are
forked into a child (default port-passing mode, so the child's out-port map
starts as a copy of the parent's), if `fork2` fails on the port of some
out-set — its slot 0 or slot 1 CAS from null loses because the slot is
already non-null, e.g. frozen while the out-set is being finished — then
that out-set's entry is erased from both maps rather than retried, so after
`propagate_ports_for` neither the parent's nor the child's out-port map
holds a port into that out-set.  Hypotheses: the out-set is in the parent
map, keys are unique (it is an `unordered_map`), port ids are live heap
nodes distinct from the failing port, and the failing port's node has a
non-null slot. -/
theorem C10_fork2_failure_erases (h : pp_heap) (parent : List (Nat × Nat))
    (out port : Nat)
    (hmem : (out, port) ∈ parent)
    (hnodup : (parent.map Prod.fst).Nodup)
    (hports : ∀ e ∈ parent, e.2 < h.next)
    (hdist : ∀ e ∈ parent, e.1 ≠ out → e.2 ≠ port)
    (hfail : (h.nodes port).slot1 ≠ pp_slot.null ∨
      (h.nodes port).slot0 ≠ pp_slot.null) :
    map_lookup (propagate_out_ports_default h parent).2.1 out = none ∧
    map_lookup (propagate_out_ports_default h parent).2.2 out = none := by
  have his : (map_lookup parent out).isSome = true :=
    map_lookup_isSome_of_mem parent out port hmem
  have hin := fork_out_ports_loop_erases parent h parent parent [] out port
    hmem hnodup hports hdist hfail his
  unfold propagate_out_ports_default fork_out_ports_for
  exact ⟨foldl_erase_mem _ _ _ hin, foldl_erase_mem _ _ _ hin⟩

theorem C10_witness :
    map_lookup (propagate_out_ports_default
      ⟨fun _ => ⟨pp_slot.frozen, pp_slot.frozen⟩, 5⟩ [(1, 2)]).2.1 1 = none ∧
    map_lookup (propagate_out_ports_default
      ⟨fun _ => ⟨pp_slot.frozen, pp_slot.frozen⟩, 5⟩ [(1, 2)]).2.2 1 = none :=
  C10_fork2_failure_erases ⟨fun _ => ⟨pp_slot.frozen, pp_slot.frozen⟩, 5⟩
    [(1, 2)] 1 2 (by decide) (by decide)
    (by intro e he; simp at he; subst he; decide)
    (by intro e he hne; simp at he; subst he; simp at hne)
    (by decide)
